import Mathlib

/-!
Verification of the hash-chained integrity ledger of the Healthcare-Management
repository (src/app.py `BlockchainManager`, `compute_data_hash`,
`sync_blockchain_with_existing_data`; src/blockchain.py `Blockchain`).

Shallow embedding conventions:
* Python scalar values appearing in table rows and record ids are modelled by
  `PyVal` (integers, strings, None); `pyStr` is Python's `str(...)` on them and
  `pyRepr` Python's `repr(...)` as used when a list of tuples is turned into a
  string by `str(sorted(data.items()))`.
* SHA-256 is implemented concretely over `Nat` arithmetic (`sha256Hex`), with
  UTF-8 encoding of the input string, so block hashes are the real digests.
* The database is passed explicitly: the persisted ledger is a `List Block`
  (one entry per row of the `BlockChain` table, in insertion order), an `ORDER
  BY` clause is modelled by `List.insertionSort` on the relevant key, and the
  result of the `INSERT` statement (the `rowcount` that
  `DatabaseManager.execute_query` returns, `none` on a caught database error)
  is a parameter of `add_block`.
* `created_at` (`datetime.now()`, informational only, never hashed and never
  compared) is omitted from the `Block` structure.
-/

/-- Python scalar values as they occur in table rows and record ids. -/
inductive PyVal where
  | int (n : Int)
  | str (s : String)
  | null
deriving DecidableEq, Repr

/-- Python `str(v)` for a `PyVal` (`str(5) = "5"`, `str("x") = "x"`,
`str(None) = "None"`). -/
def pyStr : PyVal → String
  | .int n => toString n
  | .str s => s
  | .null => "None"

/-- Python `repr(v)` for a `PyVal` as it appears inside `str(list-of-tuples)`
(strings are quoted; string escaping of quote characters is not modelled, which
only affects which exact byte string is fed to the digest, not any claim). -/
def pyRepr : PyVal → String
  | .int n => toString n
  | .str s => "'" ++ s ++ "'"
  | .null => "None"

/-! ## SHA-256 over `Nat` arithmetic -/

/-- 32-bit right rotation on a `Nat` below `2^32`. -/
def rotr32 (x n : Nat) : Nat := ((x >>> n) ||| (x <<< (32 - n))) % 4294967296

/-- The eight working variables of the SHA-256 compression function. -/
structure Hash8 where
  s0 : Nat
  s1 : Nat
  s2 : Nat
  s3 : Nat
  s4 : Nat
  s5 : Nat
  s6 : Nat
  s7 : Nat
deriving DecidableEq, Repr

/-- SHA-256 initial hash value (fractional parts of square roots of the first
eight primes). -/
def sha256H0 : Hash8 :=
  ⟨1779033703, 3144134277, 1013904242, 2773480762,
   1359893119, 2600822924, 528734635, 1541459225⟩

/-- SHA-256 round constants (fractional parts of cube roots of the first 64
primes). -/
def sha256K : List Nat :=
  [1116352408, 1899447441, 3049323471, 3921009573, 961987163, 1508970993, 2453635748, 2870763221,
   3624381080, 310598401, 607225278, 1426881987, 1925078388, 2162078206, 2614888103, 3248222580,
   3835390401, 4022224774, 264347078, 604807628, 770255983, 1249150122, 1555081692, 1996064986,
   2554220882, 2821834349, 2952996808, 3210313671, 3336571891, 3584528711, 113926993, 338241895,
   666307205, 773529912, 1294757372, 1396182291, 1695183700, 1986661051, 2177026350, 2456956037,
   2730485921, 2820302411, 3259730800, 3345764771, 3516065817, 3600352804, 4094571909, 275423344,
   430227734, 506948616, 659060556, 883997877, 958139571, 1322822218, 1537002063, 1747873779,
   1955562222, 2024104815, 2227730452, 2361852424, 2428436474, 2756734187, 3204031479, 3329325298]

/-- One SHA-256 compression round with round constant `k` and schedule word
`w`. -/
def sha256Step (st : Hash8) (k w : Nat) : Hash8 :=
  let e1 := (rotr32 st.s4 6) ^^^ (rotr32 st.s4 11) ^^^ (rotr32 st.s4 25)
  let ch := (st.s4 &&& st.s5) ^^^ ((st.s4 ^^^ 4294967295) &&& st.s6)
  let t1 := (st.s7 + e1 + ch + k + w) % 4294967296
  let e0 := (rotr32 st.s0 2) ^^^ (rotr32 st.s0 13) ^^^ (rotr32 st.s0 22)
  let maj := (st.s0 &&& st.s1) ^^^ (st.s0 &&& st.s2) ^^^ (st.s1 &&& st.s2)
  let t2 := (e0 + maj) % 4294967296
  ⟨(t1 + t2) % 4294967296, st.s0, st.s1, st.s2,
   (st.s3 + t1) % 4294967296, st.s4, st.s5, st.s6⟩

/-- Extend a 16-word message schedule by `n` further words. -/
def sha256Extend : Nat → List Nat → List Nat
  | 0, w => w
  | n + 1, w =>
    let i := w.length
    let w15 := w.getD (i - 15) 0
    let w2 := w.getD (i - 2) 0
    let sig0 := (rotr32 w15 7) ^^^ (rotr32 w15 18) ^^^ (w15 >>> 3)
    let sig1 := (rotr32 w2 17) ^^^ (rotr32 w2 19) ^^^ (w2 >>> 10)
    sha256Extend n (w ++ [(w.getD (i - 16) 0 + sig0 + w.getD (i - 7) 0 + sig1) % 4294967296])

/-- Group a byte list into big-endian 32-bit words. -/
def bytesToWords : List Nat → List Nat
  | b0 :: b1 :: b2 :: b3 :: rest =>
    (((b0 * 256 + b1) * 256 + b2) * 256 + b3) :: bytesToWords rest
  | _ => []

/-- Componentwise addition modulo `2^32` of two hash states. -/
def hash8Add (x y : Hash8) : Hash8 :=
  ⟨(x.s0 + y.s0) % 4294967296, (x.s1 + y.s1) % 4294967296,
   (x.s2 + y.s2) % 4294967296, (x.s3 + y.s3) % 4294967296,
   (x.s4 + y.s4) % 4294967296, (x.s5 + y.s5) % 4294967296,
   (x.s6 + y.s6) % 4294967296, (x.s7 + y.s7) % 4294967296⟩

/-- Compress one 64-byte chunk into the running hash state. -/
def sha256Compress (st : Hash8) (chunk : List Nat) : Hash8 :=
  let w := sha256Extend 48 (bytesToWords chunk)
  hash8Add st ((sha256K.zip w).foldl (fun s kw => sha256Step s kw.1 kw.2) st)

/-- Fold the compression function over 64-byte chunks, with fuel (structural
recursion so the kernel can evaluate it; each step consumes at least one byte,
so fuel equal to the byte count suffices). -/
def sha256Go : Nat → Hash8 → List Nat → Hash8
  | 0, st, _ => st
  | n + 1, st, l =>
    if l.isEmpty then st
    else sha256Go n (sha256Compress st (l.take 64)) (l.drop 64)

/-- Fold the compression function over all 64-byte chunks. -/
def sha256Chunks (st : Hash8) (l : List Nat) : Hash8 :=
  sha256Go l.length st l

/-- `n` big-endian bytes of the value `v`. -/
def beBytes : Nat → Nat → List Nat
  | 0, _ => []
  | n + 1, v => beBytes n (v / 256) ++ [v % 256]

/-- SHA-256 padding: `0x80`, zeros to 56 mod 64, then the 8-byte big-endian
bit length. -/
def sha256Pad (msg : List Nat) : List Nat :=
  let len := msg.length
  msg ++ (128 :: List.replicate ((64 - ((len + 9) % 64)) % 64) 0) ++ beBytes 8 (len * 8)

/-- UTF-8 encoding of a single code point. -/
def utf8EncodeCp (n : Nat) : List Nat :=
  if n < 128 then [n]
  else if n < 2048 then [192 + n / 64, 128 + n % 64]
  else if n < 65536 then [224 + n / 4096, 128 + (n / 64) % 64, 128 + n % 64]
  else [240 + n / 262144, 128 + (n / 4096) % 64, 128 + (n / 64) % 64, 128 + n % 64]

/-- UTF-8 bytes of a string (Python's `.encode()`). -/
def utf8Bytes (s : String) : List Nat :=
  s.data.foldr (fun c acc => utf8EncodeCp c.toNat ++ acc) []

/-- Lowercase hexadecimal digit. -/
def hexDigit (n : Nat) : Char :=
  if n < 10 then Char.ofNat (48 + n) else Char.ofNat (87 + n)

/-- Eight lowercase hex digits of a 32-bit word. -/
def toHex8 (x : Nat) : String :=
  String.mk ((List.range 8).map (fun i => hexDigit ((x >>> ((7 - i) * 4)) &&& 15)))

/-- `hashlib.sha256(s.encode()).hexdigest()`. -/
def sha256Hex (s : String) : String :=
  let st := sha256Chunks sha256H0 (sha256Pad (utf8Bytes s))
  toHex8 st.s0 ++ toHex8 st.s1 ++ toHex8 st.s2 ++ toHex8 st.s3 ++
  toHex8 st.s4 ++ toHex8 st.s5 ++ toHex8 st.s6 ++ toHex8 st.s7

/-! ## Data model: blocks, manager state, database environment -/

/-- One block of the ledger, as built by `BlockchainManager.add_block`
(src/app.py lines 259-300) and as persisted in the `BlockChain` table.
`created_at` (`datetime.now()`, informational, never hashed or compared) is
omitted. -/
structure Block where
  index : Nat
  table_name : String
  record_id : PyVal
  data_hash : String
  block_hash : String
  previous_hash : String
deriving DecidableEq, Repr

/-- The mutable state of `BlockchainManager` (src/app.py lines 198-203):
`self.chain` and `self.initialized` (the latter is called `initDone` here). -/
structure BlockchainManager where
  chain : List Block
  initDone : Bool
deriving DecidableEq, Repr

/-- The database environment a call observes: whether
`DatabaseManager.ensure_connection()` succeeds, the count returned by the
`user_tables` existence check (`none` models a caught query error, which
`DatabaseManager.execute_query` surfaces as `None`), and the persisted rows of
the `BlockChain` table in insertion order. -/
structure InitEnv where
  connOk : Bool
  tableCount : Option Int
  ledger : List Block
deriving Repr

/-- `ORDER BY block_index DESC` on the persisted ledger rows. -/
def orderByIndexDesc (l : List Block) : List Block :=
  List.insertionSort (fun a b => b.index ≤ a.index) l

/-- `ORDER BY block_index` (ascending) on the persisted ledger rows. -/
def orderByIndexAsc (l : List Block) : List Block :=
  List.insertionSort (fun a b => a.index ≤ b.index) l

/-- `BlockchainManager.load_chain` (src/app.py lines 230-257): select the
blocks ordered by `block_index DESC`, `FETCH FIRST limit ROWS ONLY`, then
rebuild `self.chain` in reversed (chronological) order; when the query yields
no rows (`if result:` is false) the current chain is left as it is. -/
def load_chain (chain : List Block) (ledger : List Block) (limit : Nat) : List Block :=
  let result := (orderByIndexDesc ledger).take limit
  if result.isEmpty then chain else result.reverse

/-- `Blockchain._load_chain_from_db` (src/blockchain.py lines 12-25): select
all persisted blocks ordered by `block_index` ascending.  (That variant's rows
lack `table_name`/`record_id`; the ordering semantics are identical, so the
same `Block` type is reused.) -/
def load_chain_from_db (ledger : List Block) : List Block :=
  orderByIndexAsc ledger

/-- `BlockchainManager.lazy_init` (src/app.py lines 205-228): a no-op success
once `self.initialized` is set; otherwise require a connection, probe
`user_tables` for the `BLOCKCHAIN` table, load the chain (limit 1000) when the
probe reports it exists, and set the flag. -/
def lazy_init (m : BlockchainManager) (env : InitEnv) : BlockchainManager × Bool :=
  if m.initDone then (m, true)
  else if !env.connOk then (m, false)
  else
    let m1 :=
      match env.tableCount with
      | some n => if 0 < n then { m with chain := load_chain m.chain env.ledger 1000 } else m
      | none => m
    ({ m1 with initDone := true }, true)

/-- `self.chain[-1]['block_hash'] if self.chain else "0"`. -/
def lastBlockHash (c : List Block) : String :=
  match c.getLast? with
  | some b => b.block_hash
  | none => "0"

/-- `BlockchainManager.add_block` (src/app.py lines 259-300).  `rowcount` is
what `DatabaseManager.execute_query` returns for the `INSERT` (`none` models a
caught database error); the block is appended to the in-memory chain and
`True` returned only when `rowcount and rowcount > 0`. -/
def add_block (m : BlockchainManager) (env : InitEnv) (table_name : String)
    (record_id : PyVal) (data_hash : String) (rowcount : Option Int) :
    BlockchainManager × Bool :=
  match lazy_init m env with
  | (m1, false) => (m1, false)
  | (m1, true) =>
    let index := m1.chain.length + 1
    let previous_hash := lastBlockHash m1.chain
    let block_hash := sha256Hex (toString index ++ previous_hash ++ data_hash)
    let b : Block := ⟨index, table_name, record_id, data_hash, block_hash, previous_hash⟩
    match rowcount with
    | some n => if 0 < n then ({ m1 with chain := m1.chain ++ [b] }, true) else (m1, false)
    | none => (m1, false)

/-- The per-block test of `BlockchainManager.verify_record`: table name equal,
`str(record_id)` equal, data hash equal. -/
def matchesRecord (table_name : String) (record_id : PyVal) (data_hash : String)
    (b : Block) : Bool :=
  b.table_name == table_name && pyStr b.record_id == pyStr record_id &&
    b.data_hash == data_hash

/-- `BlockchainManager.verify_record` (src/app.py lines 302-312): linear scan
of the in-memory chain after `lazy_init`. -/
def verify_record (m : BlockchainManager) (env : InitEnv) (table_name : String)
    (record_id : PyVal) (data_hash : String) : BlockchainManager × Bool :=
  match lazy_init m env with
  | (m1, false) => (m1, false)
  | (m1, true) => (m1, m1.chain.any (matchesRecord table_name record_id data_hash))

/-- `BlockchainManager.get_recent_blocks` (src/app.py lines 314-319):
`self.chain[-limit:] if self.chain else []`, for a non-negative `limit`
(Python's `chain[-0:]` is `chain[0:]`, the whole list). -/
def get_recent_blocks (m : BlockchainManager) (env : InitEnv) (limit : Nat) :
    List Block :=
  match lazy_init m env with
  | (_, false) => []
  | (m1, true) =>
    if m1.chain.isEmpty then []
    else if limit == 0 then m1.chain
    else m1.chain.drop (m1.chain.length - limit)

/-! ## Hasher -/

/-- Insertion of one key/value pair into a Python dict represented as its
ordered association list: an existing key has its value replaced in place, a
new key is appended. -/
def pyDictInsert : List (String × PyVal) → String × PyVal → List (String × PyVal)
  | [], kv => [kv]
  | (k0, v0) :: rest, (k, v) =>
    if k0 == k then (k0, v) :: rest else (k0, v0) :: pyDictInsert rest (k, v)

/-- The dict comprehension `{col: val for col, val in zip(columns, row)}`. -/
def pyDict (ps : List (String × PyVal)) : List (String × PyVal) :=
  ps.foldl pyDictInsert []

/-- Python `sorted(data.items())`.  Tuples are compared lexicographically;
because the items come from a dict, keys are pairwise distinct and the value
components are never compared, so sorting by key alone is exact. -/
def sortedItems (ps : List (String × PyVal)) : List (String × PyVal) :=
  List.insertionSort (fun a b => a.1 ≤ b.1) ps

/-- Python `str(...)` of a list of `(key, value)` tuples, e.g.
`[('a', 1), ('b', 2)]`. -/
def strOfItems (ps : List (String × PyVal)) : String :=
  "[" ++ String.intercalate ", "
    (ps.map (fun kv => "(" ++ pyRepr (.str kv.1) ++ ", " ++ pyRepr kv.2 ++ ")")) ++ "]"

/-- `compute_data_hash` (src/app.py lines 323-331).  The `except` fallback is
unreachable for the modelled value domain (dict keys are unique, so `sorted`
never compares values and cannot raise), so only the main path is modelled.
`table_name` is accepted but unused, exactly as in the source. -/
def compute_data_hash (table_name : String) (row : List PyVal) (columns : List String) :
    String :=
  let data := pyDict (columns.zip row)
  let data_str := strOfItems (sortedItems data)
  sha256Hex data_str

/-! ## Reconciler -/

/-- One tracked table as the reconciler sees it: its name, its column names
(from `get_table_columns`), and its rows (from `SELECT *`). -/
structure TrackedTable where
  name : String
  columns : List String
  rows : List (List PyVal)
deriving Repr

/-- The body of the inner loop of `sync_blockchain_with_existing_data`
(src/app.py lines 790-797): hash the row, use `row[0]` as record id, and
`add_block` only when `verify_record` fails; the `Nat` counts the
`synced_records` increment.  (`row[0]` of an empty row would raise and abort
the table; `headD .null` stands in for it, the difference being invisible to
any table whose rows are non-empty.) -/
def processRow (env : InitEnv) (m : BlockchainManager) (t : String)
    (cols : List String) (row : List PyVal) : BlockchainManager × Nat :=
  let data_hash := compute_data_hash t row cols
  let rid := row.headD PyVal.null
  match verify_record m env t rid data_hash with
  | (m1, true) => (m1, 0)
  | (m1, false) =>
    match add_block m1 env t rid data_hash (some 1) with
    | (m2, true) => (m2, 1)
    | (m2, false) => (m2, 0)

/-- The inner `for row in result:` loop of `sync_blockchain_with_existing_data`
over one table's fetched rows, threading the manager state and the
`synced_records` tally. -/
def syncRows (env : InitEnv) (t : String) (cols : List String)
    (mk : BlockchainManager × Nat) (rows : List (List PyVal)) :
    BlockchainManager × Nat :=
  rows.foldl
    (fun acc row =>
      let r := processRow env acc.1 t cols row
      (r.1, acc.2 + r.2))
    mk

/-- One iteration of the outer loop of `sync_blockchain_with_existing_data`:
skip a table without columns (`if not columns: continue`), and process at most
100 rows (`FETCH FIRST 100 ROWS ONLY`). -/
def syncTable (env : InitEnv) (m : BlockchainManager) (t : TrackedTable) :
    BlockchainManager × Nat :=
  if t.columns.isEmpty then (m, 0)
  else syncRows env t.name t.columns (m, 0) (t.rows.take 100)

/-- The outer `for i, table_name in enumerate(available_tables):` loop. -/
def syncTables (env : InitEnv) (mk : BlockchainManager × Nat)
    (tables : List TrackedTable) : BlockchainManager × Nat :=
  tables.foldl
    (fun acc t =>
      let r := syncTable env acc.1 t
      (r.1, acc.2 + r.2))
    mk

/-- `sync_blockchain_with_existing_data` (src/app.py lines 758-804), with the
`INSERT` of every attempted `add_block` succeeding (`rowcount = 1`): walk the
tracked tables and return the final manager state together with
`synced_records`, the number of blocks added. -/
def sync_blockchain_with_existing_data (env : InitEnv) (m : BlockchainManager)
    (tables : List TrackedTable) : BlockchainManager × Nat :=
  syncTables env (m, 0) tables

/-! ## Chain validity (the core invariant of spec section 3) -/

/-- A block's stored hash equals the digest recomputed from its index,
previous hash and data hash. -/
def blockHashOk (b : Block) : Bool :=
  b.block_hash == sha256Hex (toString b.index ++ b.previous_hash ++ b.data_hash)

/-- Every adjacent pair is linked: the later block's `previous_hash` is the
earlier block's `block_hash`. -/
def linksOk : List Block → Bool
  | b1 :: b2 :: rest => (b2.previous_hash == b1.block_hash) && linksOk (b2 :: rest)
  | _ => true

/-- The core chain invariant: the first block's `previous_hash` is the
sentinel `"0"`, adjacent blocks are linked, and every block's hash recomputes. -/
def chainValid (c : List Block) : Bool :=
  (match c.head? with
   | some b => b.previous_hash == "0"
   | none => true)
  && linksOk c && c.all blockHashOk

/-! ## Helper lemmas about the manager operations -/

theorem lazy_init_initDone (m : BlockchainManager) (env : InitEnv)
    (hm : m.initDone = true) : lazy_init m env = (m, true) := by
  simp [lazy_init, hm]

/-- The block `add_block` constructs on top of chain `c`. -/
def mkBlock (c : List Block) (t : String) (rid : PyVal) (dh : String) : Block :=
  ⟨c.length + 1, t, rid, dh,
   sha256Hex (toString (c.length + 1) ++ lastBlockHash c ++ dh), lastBlockHash c⟩

theorem add_block_success (m : BlockchainManager) (env : InitEnv) (t : String)
    (rid : PyVal) (dh : String) (n : Int) (hm : m.initDone = true) (hn : 0 < n) :
    add_block m env t rid dh (some n) =
      (⟨m.chain ++ [mkBlock m.chain t rid dh], true⟩, true) := by
  cases m with
  | mk c i =>
    cases i
    · simp at hm
    · simp [add_block, lazy_init, mkBlock, hn]

/-- The `rowcount` outcomes on which `rowcount and rowcount > 0` is falsy:
a caught database error (`None`) or a non-positive row count. -/
def insertFailed : Option Int → Bool
  | none => true
  | some n => decide (n ≤ 0)

theorem add_block_failure (m : BlockchainManager) (env : InitEnv) (t : String)
    (rid : PyVal) (dh : String) (rc : Option Int) (hm : m.initDone = true)
    (hf : insertFailed rc = true) : add_block m env t rid dh rc = (m, false) := by
  cases m with
  | mk c i =>
    cases i
    · simp at hm
    · cases rc with
      | none => simp [add_block, lazy_init]
      | some n =>
        have hn : ¬ (0 < n) := by
          simpa [insertFailed] using hf
        simp [add_block, lazy_init, hn]

theorem verify_record_initDone (m : BlockchainManager) (env : InitEnv) (t : String)
    (rid : PyVal) (dh : String) (hm : m.initDone = true) :
    verify_record m env t rid dh = (m, m.chain.any (matchesRecord t rid dh)) := by
  cases m with
  | mk c i =>
    cases i
    · simp at hm
    · simp [verify_record, lazy_init]

/-! ## C8 -/

/-- C8: once the manager is initialized (`self.initialized` set), every
further `lazy_init` call returns success immediately and leaves the whole
state unchanged. -/
theorem lazy_init_idempotent (m : BlockchainManager) (env : InitEnv)
    (hm : m.initDone = true) : lazy_init m env = (m, true) :=
  lazy_init_initDone m env hm

/-- Witness for C8 at a concrete initialized manager and environment. -/
theorem lazy_init_idempotent_witness :
    (BlockchainManager.mk [] true).initDone = true ∧
      lazy_init ⟨[], true⟩ ⟨true, some 1, []⟩ = (⟨[], true⟩, true) :=
  ⟨by decide, lazy_init_idempotent ⟨[], true⟩ ⟨true, some 1, []⟩ (by decide)⟩

/-! ## C9 -/

/-- C9: the table name does not influence the row hash: `compute_data_hash`
accepts `table_name` but never mixes it into the digest, so any two table
names give the same hash on the same row and columns. -/
theorem compute_data_hash_table_noninterference :
    ∀ (t1 t2 : String) (row : List PyVal) (columns : List String),
      compute_data_hash t1 row columns = compute_data_hash t2 row columns :=
  fun _ _ _ _ => rfl

/-! ## C3 -/

/-- C3: in the Ready state, when the persistence step fails (the insert's
`rowcount` is `None` from a caught error, or not positive), `add_block`
returns the explicit result `False` and the whole in-memory state, in
particular the chain and its length, is unchanged. -/
theorem add_block_persistence_failure (m : BlockchainManager) (env : InitEnv)
    (t : String) (rid : PyVal) (dh : String) (rc : Option Int)
    (hm : m.initDone = true) (hf : insertFailed rc = true) :
    add_block m env t rid dh rc = (m, false) ∧
      (add_block m env t rid dh rc).1.chain.length = m.chain.length := by
  have h := add_block_failure m env t rid dh rc hm hf
  exact ⟨h, by rw [h]⟩

/-- Witness for C3: a one-block chain, a failing insert (`rowcount = None`). -/
theorem add_block_persistence_failure_witness :
    ((BlockchainManager.mk [⟨1, "PATIENTS", .int 1, "aa", "hh", "0"⟩] true).initDone = true ∧
       insertFailed none = true) ∧
      (add_block ⟨[⟨1, "PATIENTS", .int 1, "aa", "hh", "0"⟩], true⟩ ⟨true, some 1, []⟩
          "PATIENTS" (.int 2) "bb" none =
        (⟨[⟨1, "PATIENTS", .int 1, "aa", "hh", "0"⟩], true⟩, false) ∧
       (add_block ⟨[⟨1, "PATIENTS", .int 1, "aa", "hh", "0"⟩], true⟩ ⟨true, some 1, []⟩
           "PATIENTS" (.int 2) "bb" none).1.chain.length =
         [Block.mk 1 "PATIENTS" (.int 1) "aa" "hh" "0"].length) :=
  ⟨⟨by decide, by decide⟩,
    add_block_persistence_failure ⟨[⟨1, "PATIENTS", .int 1, "aa", "hh", "0"⟩], true⟩
      ⟨true, some 1, []⟩ "PATIENTS" (.int 2) "bb" none (by decide) (by decide)⟩

/-! ## C10 -/

/-- C10: for an initialized manager, `get_recent_blocks n` with `n` at least
the chain length returns the entire chain (in stored, ascending order), and
`get_recent_blocks 0` also returns the entire chain, because `chain[-0:]`
degenerates to the full list. -/
theorem get_recent_blocks_edge_cases (m : BlockchainManager) (env : InitEnv)
    (n : Nat) (hm : m.initDone = true) :
    (m.chain.length ≤ n → get_recent_blocks m env n = m.chain) ∧
      get_recent_blocks m env 0 = m.chain := by
  cases m with
  | mk c i =>
    cases i
    · simp at hm
    · constructor
      · intro hle
        simp only [BlockchainManager.chain] at hle
        cases c with
        | nil => simp [get_recent_blocks, lazy_init]
        | cons a c2 =>
          cases n with
          | zero => simp at hle
          | succ k =>
            have h0 : c2.length - k = 0 := by
              simp only [List.length_cons] at hle
              omega
            simp [get_recent_blocks, lazy_init, h0]
      · cases c <;> simp [get_recent_blocks, lazy_init]

/-- Witness for C10 on a one-block chain with `n = 5` and `n = 0`. -/
theorem get_recent_blocks_edge_cases_witness :
    (BlockchainManager.mk [⟨1, "T", .int 1, "aa", "hh", "0"⟩] true).initDone = true ∧
      (((BlockchainManager.mk [⟨1, "T", .int 1, "aa", "hh", "0"⟩] true).chain.length ≤ 5 →
          get_recent_blocks ⟨[⟨1, "T", .int 1, "aa", "hh", "0"⟩], true⟩ ⟨true, some 1, []⟩ 5 =
            (BlockchainManager.mk [⟨1, "T", .int 1, "aa", "hh", "0"⟩] true).chain) ∧
        get_recent_blocks ⟨[⟨1, "T", .int 1, "aa", "hh", "0"⟩], true⟩ ⟨true, some 1, []⟩ 0 =
          (BlockchainManager.mk [⟨1, "T", .int 1, "aa", "hh", "0"⟩] true).chain) :=
  ⟨by decide,
    get_recent_blocks_edge_cases ⟨[⟨1, "T", .int 1, "aa", "hh", "0"⟩], true⟩
      ⟨true, some 1, []⟩ 5 (by decide)⟩

/-! ## C2 -/

/-- C2: starting from the empty (initialized) chain, a successful `add_block`
yields the block `(index 1, previous_hash "0", block_hash SHA256("1"+"0"+d1))`,
and a second one yields `(index 2, previous_hash = first block's hash,
block_hash SHA256("2"+hash1+d2))` — the block hash is exactly the digest of
index, previous hash and data hash concatenated as strings. -/
theorem add_block_hash_construction (env : InitEnv) (t1 t2 : String) (r1 r2 : PyVal)
    (d1 d2 : String) :
    add_block ⟨[], true⟩ env t1 r1 d1 (some 1) =
      (⟨[⟨1, t1, r1, d1, sha256Hex ("1" ++ "0" ++ d1), "0"⟩], true⟩, true) ∧
    add_block (add_block ⟨[], true⟩ env t1 r1 d1 (some 1)).1 env t2 r2 d2 (some 1) =
      (⟨[⟨1, t1, r1, d1, sha256Hex ("1" ++ "0" ++ d1), "0"⟩,
         ⟨2, t2, r2, d2,
          sha256Hex ("2" ++ sha256Hex ("1" ++ "0" ++ d1) ++ d2),
          sha256Hex ("1" ++ "0" ++ d1)⟩], true⟩, true) := by
  have A1 := add_block_success ⟨[], true⟩ env t1 r1 d1 1 rfl (by decide)
  have hb1 : mkBlock [] t1 r1 d1 =
      ⟨1, t1, r1, d1, sha256Hex ("1" ++ "0" ++ d1), "0"⟩ := by
    simp only [mkBlock, lastBlockHash, List.length_nil, List.getLast?_nil]
    rfl
  rw [hb1] at A1
  have A2 := add_block_success ⟨[⟨1, t1, r1, d1, sha256Hex ("1" ++ "0" ++ d1), "0"⟩], true⟩
    env t2 r2 d2 1 rfl (by decide)
  have hb2 : mkBlock [⟨1, t1, r1, d1, sha256Hex ("1" ++ "0" ++ d1), "0"⟩] t2 r2 d2 =
      ⟨2, t2, r2, d2, sha256Hex ("2" ++ sha256Hex ("1" ++ "0" ++ d1) ++ d2),
        sha256Hex ("1" ++ "0" ++ d1)⟩ := by
    simp only [mkBlock, lastBlockHash, List.length_cons, List.length_nil,
      List.getLast?_singleton]
    rfl
  rw [hb2] at A2
  refine ⟨A1, ?_⟩
  rw [A1]
  exact A2

/-! ## C4 -/

/-- C4: immediately after a successful `add_block(t, rid, dh)`,
`verify_record(t, rid, dh)` returns true; for a hash `dh2` that appears in no
block of the chain, `verify_record` returns false for every table and id; and
record ids are compared as strings, so a numeric id and its string form verify
identically. -/
theorem verify_after_add (m : BlockchainManager) (env : InitEnv) (t : String)
    (rid : PyVal) (dh : String) (n : Int) (dh2 : String)
    (hm : m.initDone = true) (hn : 0 < n)
    (hnot : ∀ b ∈ m.chain, b.data_hash ≠ dh2) :
    ((add_block m env t rid dh (some n)).2 = true ∧
      (verify_record (add_block m env t rid dh (some n)).1 env t rid dh).2 = true) ∧
    (∀ (t2 : String) (rid2 : PyVal), (verify_record m env t2 rid2 dh2).2 = false) ∧
    (∀ (t3 : String) (k : Int) (dh3 : String),
      (verify_record m env t3 (PyVal.int k) dh3).2 =
        (verify_record m env t3 (PyVal.str (toString k)) dh3).2) := by
  refine ⟨⟨?_, ?_⟩, ?_, ?_⟩
  · rw [add_block_success m env t rid dh n hm hn]
  · rw [add_block_success m env t rid dh n hm hn]
    rw [verify_record_initDone _ env t rid dh rfl]
    simp [List.any_append, matchesRecord, mkBlock]
  · intro t2 rid2
    rw [verify_record_initDone m env t2 rid2 dh2 hm]
    simp only [List.any_eq_false]
    intro b hb
    have hne := hnot b hb
    simp [matchesRecord, hne]
  · intro t3 k dh3
    rw [verify_record_initDone m env t3 (.int k) dh3 hm,
      verify_record_initDone m env t3 (.str (toString k)) dh3 hm]
    have hpred : matchesRecord t3 (PyVal.int k) dh3 =
        matchesRecord t3 (PyVal.str (toString k)) dh3 := by
      funext b
      simp [matchesRecord, pyStr]
    rw [hpred]

/-- Witness for C4 on the empty chain: add `("PATIENTS", 1, "aa")`, then
verify it, check `"cc"` (never attested) is rejected, and compare the id `1`
with `"1"`. -/
theorem verify_after_add_witness :
    ((BlockchainManager.mk [] true).initDone = true ∧ (0 : Int) < 1 ∧
      (∀ b ∈ (BlockchainManager.mk [] true).chain, b.data_hash ≠ "cc")) ∧
    (((add_block ⟨[], true⟩ ⟨true, some 1, []⟩ "PATIENTS" (.int 1) "aa" (some 1)).2 = true ∧
        (verify_record (add_block ⟨[], true⟩ ⟨true, some 1, []⟩ "PATIENTS" (.int 1) "aa"
            (some 1)).1 ⟨true, some 1, []⟩ "PATIENTS" (.int 1) "aa").2 = true) ∧
      (∀ (t2 : String) (rid2 : PyVal),
        (verify_record ⟨[], true⟩ ⟨true, some 1, []⟩ t2 rid2 "cc").2 = false) ∧
      (∀ (t3 : String) (k : Int) (dh3 : String),
        (verify_record ⟨[], true⟩ ⟨true, some 1, []⟩ t3 (PyVal.int k) dh3).2 =
          (verify_record ⟨[], true⟩ ⟨true, some 1, []⟩ t3 (PyVal.str (toString k)) dh3).2)) :=
  ⟨⟨by decide, by decide, by simp⟩,
    verify_after_add ⟨[], true⟩ ⟨true, some 1, []⟩ "PATIENTS" (.int 1) "aa" 1 "cc"
      (by decide) (by decide) (by simp)⟩

/-! ## C1 -/

theorem linksOk_append (c : List Block) (b : Block) (h : linksOk c = true)
    (hb : b.previous_hash = lastBlockHash c) : linksOk (c ++ [b]) = true := by
  induction c with
  | nil => simp [linksOk]
  | cons a c2 ih =>
    cases c2 with
    | nil =>
      simp only [lastBlockHash, List.getLast?_singleton] at hb
      simp [linksOk, hb]
    | cons a2 c3 =>
      simp only [linksOk, Bool.and_eq_true] at h
      have hb2 : b.previous_hash = lastBlockHash (a2 :: c3) := by
        simpa [lastBlockHash, List.getLast?_cons_cons] using hb
      have h3 := ih h.2 hb2
      simp only [List.cons_append] at h3 ⊢
      simp only [linksOk, Bool.and_eq_true]
      exact ⟨h.1, h3⟩

theorem mkBlock_hashOk (c : List Block) (t : String) (rid : PyVal) (dh : String) :
    blockHashOk (mkBlock c t rid dh) = true := by
  simp [blockHashOk, mkBlock]

theorem chainValid_append (c : List Block) (t : String) (rid : PyVal) (dh : String)
    (hc : chainValid c = true) : chainValid (c ++ [mkBlock c t rid dh]) = true := by
  simp only [chainValid] at hc ⊢
  rw [Bool.and_eq_true, Bool.and_eq_true] at hc
  obtain ⟨⟨hhead, hlinks⟩, hall⟩ := hc
  rw [Bool.and_eq_true, Bool.and_eq_true]
  refine ⟨⟨?_, ?_⟩, ?_⟩
  · cases c with
    | nil => simp [mkBlock, lastBlockHash]
    | cons a c2 => simpa using hhead
  · exact linksOk_append c _ hlinks rfl
  · rw [List.all_append, Bool.and_eq_true]
    exact ⟨hall, by simp [mkBlock_hashOk]⟩

/-- Apply a whole sequence of successful `add_block(table, record_id,
data_hash)` calls (each insert reporting `rowcount = 1`) to the empty,
initialized manager. -/
def runAdds (env : InitEnv) (calls : List (String × PyVal × String)) : BlockchainManager :=
  calls.foldl (fun m c => (add_block m env c.1 c.2.1 c.2.2 (some 1)).1) ⟨[], true⟩

theorem runAdds_aux (env : InitEnv) (calls : List (String × PyVal × String)) :
    ∀ m : BlockchainManager, m.initDone = true → chainValid m.chain = true →
      chainValid ((calls.foldl (fun m c => (add_block m env c.1 c.2.1 c.2.2 (some 1)).1)
        m).chain) = true ∧
      (calls.foldl (fun m c => (add_block m env c.1 c.2.1 c.2.2 (some 1)).1)
        m).initDone = true := by
  induction calls with
  | nil => intro m hm hc; exact ⟨hc, hm⟩
  | cons c rest ih =>
    intro m hm hc
    simp only [List.foldl_cons]
    rw [add_block_success m env c.1 c.2.1 c.2.2 1 hm (by decide)]
    exact ih ⟨m.chain ++ [mkBlock m.chain c.1 c.2.1 c.2.2], true⟩ rfl
      (chainValid_append m.chain c.1 c.2.1 c.2.2 hc)

/-- C1: after any finite sequence of successful `add_block` calls starting
from the empty chain, the in-memory chain satisfies the core invariant: the
first block's `previous_hash` is the sentinel `"0"`, each later block's
`previous_hash` equals its predecessor's `block_hash`, and every block's
`block_hash` equals the digest recomputed from its index, previous hash and
data hash. -/
theorem chain_invariant_after_adds (env : InitEnv)
    (calls : List (String × PyVal × String)) :
    chainValid (runAdds env calls).chain = true :=
  (runAdds_aux env calls ⟨[], true⟩ rfl rfl).1

/-! ## C5 -/

theorem perm_pairwise_strict_eq {α : Type} (r : α → α → Prop)
    (hA : ∀ a b, r a b → r b a → a = b) {l1 l2 : List α} (hp : l1.Perm l2)
    (h1 : l1.Pairwise r) (h2 : l2.Pairwise r) : l1 = l2 := by
  haveI : IsAntisymm α r := ⟨hA⟩
  exact List.eq_of_perm_of_sorted hp h1 h2

theorem sortedItems_perm_eq (l1 l2 : List (String × PyVal)) (hp : l1.Perm l2)
    (hn : (l1.map Prod.fst).Nodup) : sortedItems l1 = sortedItems l2 := by
  haveI : IsTotal (String × PyVal) (fun a b => a.1 ≤ b.1) := ⟨fun a b => le_total a.1 b.1⟩
  haveI : IsTrans (String × PyVal) (fun a b => a.1 ≤ b.1) :=
    ⟨fun a b c hab hbc => le_trans hab hbc⟩
  have hs1 : (sortedItems l1).Pairwise (fun a b => a.1 ≤ b.1) :=
    List.sorted_insertionSort _ l1
  have hs2 : (sortedItems l2).Pairwise (fun a b => a.1 ≤ b.1) :=
    List.sorted_insertionSort _ l2
  have hp1 : (sortedItems l1).Perm l1 := List.perm_insertionSort _ l1
  have hp2 : (sortedItems l2).Perm l2 := List.perm_insertionSort _ l2
  have hn2 : (l2.map Prod.fst).Nodup := (hp.map Prod.fst).nodup hn
  have hn1s : ((sortedItems l1).map Prod.fst).Nodup := ((hp1.map Prod.fst).symm).nodup hn
  have hn2s : ((sortedItems l2).map Prod.fst).Nodup := ((hp2.map Prod.fst).symm).nodup hn2
  have hne1 : (sortedItems l1).Pairwise (fun a b => a.1 ≠ b.1) := List.pairwise_map.mp hn1s
  have hne2 : (sortedItems l2).Pairwise (fun a b => a.1 ≠ b.1) := List.pairwise_map.mp hn2s
  have hstrict1 : (sortedItems l1).Pairwise (fun a b => a.1 < b.1) :=
    (hs1.and hne1).imp fun h => lt_of_le_of_ne h.1 h.2
  have hstrict2 : (sortedItems l2).Pairwise (fun a b => a.1 < b.1) :=
    (hs2.and hne2).imp fun h => lt_of_le_of_ne h.1 h.2
  exact perm_pairwise_strict_eq _ (fun a b h1 h2 => absurd h2 (lt_asymm h1))
    (hp1.trans (hp.trans hp2.symm)) hstrict1 hstrict2

theorem pyDictInsert_not_mem (acc : List (String × PyVal)) (k : String) (v : PyVal)
    (h : k ∉ acc.map Prod.fst) : pyDictInsert acc (k, v) = acc ++ [(k, v)] := by
  induction acc with
  | nil => rfl
  | cons a rest ih =>
    simp only [List.map_cons, List.mem_cons, not_or] at h
    cases a with
    | mk k0 v0 =>
      have hne : (k0 == k) = false := by
        simp only [beq_eq_false_iff_ne, ne_eq]
        exact fun he => h.1 he.symm
      simp only [pyDictInsert, hne, Bool.false_eq_true, if_false, List.cons_append,
        List.cons.injEq, true_and]
      exact ih h.2

theorem pyDict_go (l : List (String × PyVal)) :
    ∀ acc, ((acc ++ l).map Prod.fst).Nodup → l.foldl pyDictInsert acc = acc ++ l := by
  induction l with
  | nil => intro acc _; simp
  | cons p rest ih =>
    intro acc h
    cases p with
    | mk k v =>
      have hk : k ∉ acc.map Prod.fst := by
        simp only [List.map_append, List.nodup_append, List.map_cons] at h
        intro hmem
        exact h.2.2 hmem (List.mem_cons_self _ _)
      rw [List.foldl_cons, pyDictInsert_not_mem acc k v hk]
      have h2 : (((acc ++ [(k, v)]) ++ rest).map Prod.fst).Nodup := by
        simpa [List.append_assoc] using h
      rw [ih (acc ++ [(k, v)]) h2]
      simp [List.append_assoc]

theorem pyDict_eq_self (l : List (String × PyVal)) (h : (l.map Prod.fst).Nodup) :
    pyDict l = l := by
  simpa using pyDict_go l [] (by simpa using h)

/-- C5: the row hash is order-independent: hashing the same collection of
`(column, value)` pairs — the parallel `columns`/`values` sequences permuted
together, column names pairwise distinct as in a table row — yields the same
hash. -/
theorem compute_data_hash_order_independent (t : String) (cols1 cols2 : List String)
    (vals1 vals2 : List PyVal)
    (hperm : (cols1.zip vals1).Perm (cols2.zip vals2))
    (hnodup : ((cols1.zip vals1).map Prod.fst).Nodup) :
    compute_data_hash t vals1 cols1 = compute_data_hash t vals2 cols2 := by
  have h1 : pyDict (cols1.zip vals1) = cols1.zip vals1 := pyDict_eq_self _ hnodup
  have hnodup2 : ((cols2.zip vals2).map Prod.fst).Nodup := (hperm.map Prod.fst).nodup hnodup
  have h2 : pyDict (cols2.zip vals2) = cols2.zip vals2 := pyDict_eq_self _ hnodup2
  simp only [compute_data_hash]
  rw [h1, h2, sortedItems_perm_eq _ _ hperm hnodup]

/-- Witness for C5: the rows `{a: 1, b: 2}` and `{b: 2, a: 1}` hash
identically. -/
theorem compute_data_hash_order_independent_witness :
    ((["a", "b"].zip [PyVal.int 1, PyVal.int 2]).Perm
        (["b", "a"].zip [PyVal.int 2, PyVal.int 1]) ∧
      ((["a", "b"].zip [PyVal.int 1, PyVal.int 2]).map Prod.fst).Nodup) ∧
    compute_data_hash "PATIENTS" [PyVal.int 1, PyVal.int 2] ["a", "b"] =
      compute_data_hash "PATIENTS" [PyVal.int 2, PyVal.int 1] ["b", "a"] :=
  ⟨⟨by decide, by decide⟩,
    compute_data_hash_order_independent "PATIENTS" ["a", "b"] ["b", "a"]
      [PyVal.int 1, PyVal.int 2] [PyVal.int 2, PyVal.int 1] (by decide) (by decide)⟩

/-! ## C7 -/

theorem orderByIndexDesc_of_ascending (ledger : List Block)
    (hasc : ledger.Pairwise (fun a b => a.index < b.index)) :
    orderByIndexDesc ledger = ledger.reverse := by
  haveI : IsTotal Block (fun a b => b.index ≤ a.index) := ⟨fun a b => le_total b.index a.index⟩
  haveI : IsTrans Block (fun a b => b.index ≤ a.index) :=
    ⟨fun a b c h1 h2 => le_trans h2 h1⟩
  have hs : (orderByIndexDesc ledger).Pairwise (fun a b => b.index ≤ a.index) :=
    List.sorted_insertionSort _ _
  have hp : (orderByIndexDesc ledger).Perm ledger := List.perm_insertionSort _ _
  have hrev : ledger.reverse.Pairwise (fun a b => b.index < a.index) :=
    List.pairwise_reverse.mpr hasc
  have hnodup : (ledger.map Block.index).Nodup :=
    List.pairwise_map.mpr (hasc.imp fun h => Nat.ne_of_lt h)
  have hn1 : ((orderByIndexDesc ledger).map Block.index).Nodup :=
    ((hp.map Block.index).symm).nodup hnodup
  have hne : (orderByIndexDesc ledger).Pairwise (fun a b => a.index ≠ b.index) :=
    List.pairwise_map.mp hn1
  have hstrict : (orderByIndexDesc ledger).Pairwise (fun a b => b.index < a.index) :=
    (hs.and hne).imp fun h => lt_of_le_of_ne h.1 (Ne.symm h.2)
  exact perm_pairwise_strict_eq _ (fun a b h1 h2 => absurd h2 (lt_asymm h1))
    (hp.trans ledger.reverse_perm.symm) hstrict hrev

theorem orderByIndexAsc_of_ascending (ledger : List Block)
    (hasc : ledger.Pairwise (fun a b => a.index < b.index)) :
    orderByIndexAsc ledger = ledger := by
  haveI : IsTotal Block (fun a b => a.index ≤ b.index) := ⟨fun a b => le_total a.index b.index⟩
  haveI : IsTrans Block (fun a b => a.index ≤ b.index) :=
    ⟨fun a b c h1 h2 => le_trans h1 h2⟩
  have hs : (orderByIndexAsc ledger).Pairwise (fun a b => a.index ≤ b.index) :=
    List.sorted_insertionSort _ _
  have hp : (orderByIndexAsc ledger).Perm ledger := List.perm_insertionSort _ _
  have hnodup : (ledger.map Block.index).Nodup :=
    List.pairwise_map.mpr (hasc.imp fun h => Nat.ne_of_lt h)
  have hn1 : ((orderByIndexAsc ledger).map Block.index).Nodup :=
    ((hp.map Block.index).symm).nodup hnodup
  have hne : (orderByIndexAsc ledger).Pairwise (fun a b => a.index ≠ b.index) :=
    List.pairwise_map.mp hn1
  have hstrict : (orderByIndexAsc ledger).Pairwise (fun a b => a.index < b.index) :=
    (hs.and hne).imp fun h => lt_of_le_of_ne h.1 h.2
  exact perm_pairwise_strict_eq _ (fun a b h1 h2 => absurd h2 (lt_asymm h1))
    hp hstrict hasc

/-- C7: for a persisted ledger with strictly increasing block indices, loading
with limit `L` (in the fresh state with empty in-memory chain) yields exactly
the `min(L, N)` highest-index blocks in ascending order (the length-`min(L,N)`
tail suffix of the ascending ledger), and the no-limit load of
`src/blockchain.py` yields all blocks in ascending order. -/
theorem load_chain_spec (ledger : List Block) (limit : Nat)
    (hasc : ledger.Pairwise (fun a b => a.index < b.index)) :
    load_chain [] ledger limit = ledger.drop (ledger.length - limit) ∧
    (load_chain [] ledger limit).length = min limit ledger.length ∧
    load_chain_from_db ledger = ledger := by
  have hdesc := orderByIndexDesc_of_ascending ledger hasc
  have key : load_chain [] ledger limit = ledger.drop (ledger.length - limit) := by
    simp only [load_chain, hdesc]
    by_cases h : (List.take limit ledger.reverse).isEmpty
    · rw [if_pos h]
      rcases List.take_eq_nil_iff.mp (List.isEmpty_iff.mp h) with h0 | h0
      · subst h0
        simp
      · have hl : ledger = [] := List.reverse_eq_nil_iff.mp h0
        subst hl
        simp
    · rw [if_neg h]
      rw [show ledger.drop (ledger.length - limit) = ledger.rtake limit from rfl]
      exact (List.rtake_eq_reverse_take_reverse ledger limit).symm
  refine ⟨key, ?_, orderByIndexAsc_of_ascending ledger hasc⟩
  rw [key, List.length_drop]
  omega

/-- Witness for C7: a three-block ledger, limit 2: the two highest-index
blocks come back in ascending order. -/
theorem load_chain_spec_witness :
    ([⟨1, "T", .int 1, "a", "h1", "0"⟩, ⟨2, "T", .int 2, "b", "h2", "h1"⟩,
        ⟨3, "T", .int 3, "c", "h3", "h2"⟩] : List Block).Pairwise
        (fun a b => a.index < b.index) ∧
    (load_chain [] [⟨1, "T", .int 1, "a", "h1", "0"⟩, ⟨2, "T", .int 2, "b", "h2", "h1"⟩,
        ⟨3, "T", .int 3, "c", "h3", "h2"⟩] 2 =
      ([⟨1, "T", .int 1, "a", "h1", "0"⟩, ⟨2, "T", .int 2, "b", "h2", "h1"⟩,
          ⟨3, "T", .int 3, "c", "h3", "h2"⟩] : List Block).drop
        (([⟨1, "T", .int 1, "a", "h1", "0"⟩, ⟨2, "T", .int 2, "b", "h2", "h1"⟩,
            ⟨3, "T", .int 3, "c", "h3", "h2"⟩] : List Block).length - 2) ∧
      (load_chain [] [⟨1, "T", .int 1, "a", "h1", "0"⟩, ⟨2, "T", .int 2, "b", "h2", "h1"⟩,
          ⟨3, "T", .int 3, "c", "h3", "h2"⟩] 2).length =
        min 2 ([⟨1, "T", .int 1, "a", "h1", "0"⟩, ⟨2, "T", .int 2, "b", "h2", "h1"⟩,
            ⟨3, "T", .int 3, "c", "h3", "h2"⟩] : List Block).length ∧
      load_chain_from_db [⟨1, "T", .int 1, "a", "h1", "0"⟩, ⟨2, "T", .int 2, "b", "h2", "h1"⟩,
          ⟨3, "T", .int 3, "c", "h3", "h2"⟩] =
        [⟨1, "T", .int 1, "a", "h1", "0"⟩, ⟨2, "T", .int 2, "b", "h2", "h1"⟩,
          ⟨3, "T", .int 3, "c", "h3", "h2"⟩]) :=
  ⟨by decide,
    load_chain_spec [⟨1, "T", .int 1, "a", "h1", "0"⟩, ⟨2, "T", .int 2, "b", "h2", "h1"⟩,
      ⟨3, "T", .int 3, "c", "h3", "h2"⟩] 2 (by decide)⟩

/-- The reconciler's per-row attestation test against a chain: some block
matches the row's table, `row[0]` as record id, and the row's hash. -/
def attestedIn (c : List Block) (t : String) (cols : List String)
    (row : List PyVal) : Bool :=
  c.any (matchesRecord t (row.headD PyVal.null) (compute_data_hash t row cols))

theorem attestedIn_append (c e : List Block) (t : String) (cols : List String)
    (row : List PyVal) (h : attestedIn c t cols row = true) :
    attestedIn (c ++ e) t cols row = true := by
  simp only [attestedIn, List.any_append, Bool.or_eq_true]
  exact Or.inl h

theorem processRow_attested (env : InitEnv) (m : BlockchainManager) (t : String)
    (cols : List String) (row : List PyVal) (hm : m.initDone = true)
    (h : attestedIn m.chain t cols row = true) :
    processRow env m t cols row = (m, 0) := by
  simp only [processRow]
  rw [verify_record_initDone m env t _ _ hm]
  simp only [attestedIn] at h
  rw [h]

theorem processRow_not_attested (env : InitEnv) (m : BlockchainManager) (t : String)
    (cols : List String) (row : List PyVal) (hm : m.initDone = true)
    (h : attestedIn m.chain t cols row = false) :
    processRow env m t cols row =
      (⟨m.chain ++ [mkBlock m.chain t (row.headD PyVal.null)
        (compute_data_hash t row cols)], true⟩, 1) := by
  simp only [processRow]
  rw [verify_record_initDone m env t _ _ hm]
  simp only [attestedIn] at h
  rw [h]
  have hadd := add_block_success m env t (row.headD PyVal.null)
    (compute_data_hash t row cols) 1 hm (by decide)
  simp only [hadd]

theorem processRow_attests (env : InitEnv) (m : BlockchainManager) (t : String)
    (cols : List String) (row : List PyVal) (hm : m.initDone = true) :
    attestedIn (processRow env m t cols row).1.chain t cols row = true := by
  by_cases h : attestedIn m.chain t cols row
  · rw [processRow_attested env m t cols row hm h]
    exact h
  · rw [processRow_not_attested env m t cols row hm (by simpa using h)]
    simp only [attestedIn, List.any_append, Bool.or_eq_true]
    right
    simp [matchesRecord, mkBlock]

theorem processRow_ext (env : InitEnv) (m : BlockchainManager) (t : String)
    (cols : List String) (row : List PyVal) (hm : m.initDone = true) :
    ∃ e, (processRow env m t cols row).1.chain = m.chain ++ e ∧
      (processRow env m t cols row).1.initDone = true := by
  by_cases h : attestedIn m.chain t cols row
  · rw [processRow_attested env m t cols row hm h]
    exact ⟨[], by simp, hm⟩
  · rw [processRow_not_attested env m t cols row hm (by simpa using h)]
    exact ⟨[mkBlock m.chain t (row.headD PyVal.null) (compute_data_hash t row cols)],
      rfl, rfl⟩

theorem syncRows_ext (env : InitEnv) (t : String) (cols : List String)
    (rows : List (List PyVal)) :
    ∀ (m : BlockchainManager) (k : Nat), m.initDone = true →
      ∃ e, (syncRows env t cols (m, k) rows).1.chain = m.chain ++ e ∧
        (syncRows env t cols (m, k) rows).1.initDone = true := by
  induction rows with
  | nil => intro m k hm; exact ⟨[], by simp [syncRows], hm⟩
  | cons row rest ih =>
    intro m k hm
    rw [show syncRows env t cols (m, k) (row :: rest) =
      syncRows env t cols ((processRow env m t cols row).1,
        k + (processRow env m t cols row).2) rest from rfl]
    obtain ⟨e1, he1, hi1⟩ := processRow_ext env m t cols row hm
    obtain ⟨e2, he2, hi2⟩ := ih (processRow env m t cols row).1
      (k + (processRow env m t cols row).2) hi1
    exact ⟨e1 ++ e2, by rw [he2, he1, List.append_assoc], hi2⟩

theorem syncRows_all_attested (env : InitEnv) (t : String) (cols : List String)
    (rows : List (List PyVal)) :
    ∀ (m : BlockchainManager) (k : Nat), m.initDone = true →
      (∀ row ∈ rows, attestedIn m.chain t cols row = true) →
      syncRows env t cols (m, k) rows = (m, k) := by
  induction rows with
  | nil => intro m k _ _; rfl
  | cons row rest ih =>
    intro m k hm hall
    rw [show syncRows env t cols (m, k) (row :: rest) =
      syncRows env t cols ((processRow env m t cols row).1,
        k + (processRow env m t cols row).2) rest from rfl]
    rw [processRow_attested env m t cols row hm (hall row (List.mem_cons_self _ _))]
    exact ih m k hm fun r hr => hall r (List.mem_cons_of_mem _ hr)

theorem syncRows_attests (env : InitEnv) (t : String) (cols : List String)
    (rows : List (List PyVal)) :
    ∀ (m : BlockchainManager) (k : Nat), m.initDone = true →
      ∀ row ∈ rows,
        attestedIn (syncRows env t cols (m, k) rows).1.chain t cols row = true := by
  induction rows with
  | nil =>
    intro m k _ row hr
    exact absurd hr (List.not_mem_nil row)
  | cons row0 rest ih =>
    intro m k hm row hrow
    rw [show syncRows env t cols (m, k) (row0 :: rest) =
      syncRows env t cols ((processRow env m t cols row0).1,
        k + (processRow env m t cols row0).2) rest from rfl]
    obtain ⟨e1, he1, hi1⟩ := processRow_ext env m t cols row0 hm
    rcases List.mem_cons.mp hrow with rfl | hmem
    · have h1 := processRow_attests env m t cols row hm
      obtain ⟨e2, he2, -⟩ := syncRows_ext env t cols rest (processRow env m t cols row).1
        (k + (processRow env m t cols row).2) hi1
      rw [he2]
      exact attestedIn_append _ _ _ _ _ h1
    · exact ih (processRow env m t cols row0).1 (k + (processRow env m t cols row0).2)
        hi1 row hmem

/-- All (at most 100) fetched rows of a tracked table with columns are
attested in the chain `c`. -/
def tableAttested (c : List Block) (tbl : TrackedTable) : Prop :=
  tbl.columns.isEmpty = false →
    ∀ row ∈ tbl.rows.take 100, attestedIn c tbl.name tbl.columns row = true

theorem tableAttested_append (c e : List Block) (tbl : TrackedTable)
    (h : tableAttested c tbl) : tableAttested (c ++ e) tbl :=
  fun hc row hr => attestedIn_append c e tbl.name tbl.columns row (h hc row hr)

theorem syncTable_ext (env : InitEnv) (m : BlockchainManager) (tbl : TrackedTable)
    (hm : m.initDone = true) :
    ∃ e, (syncTable env m tbl).1.chain = m.chain ++ e ∧
      (syncTable env m tbl).1.initDone = true := by
  by_cases hc : tbl.columns.isEmpty
  · refine ⟨[], ?_, ?_⟩ <;> simp [syncTable, hc, hm]
  · rw [show syncTable env m tbl =
      syncRows env tbl.name tbl.columns (m, 0) (tbl.rows.take 100) from by
        simp [syncTable, hc]]
    exact syncRows_ext env tbl.name tbl.columns (tbl.rows.take 100) m 0 hm

theorem syncTable_attests (env : InitEnv) (m : BlockchainManager) (tbl : TrackedTable)
    (hm : m.initDone = true) : tableAttested (syncTable env m tbl).1.chain tbl := by
  intro hc row hrow
  rw [show syncTable env m tbl =
    syncRows env tbl.name tbl.columns (m, 0) (tbl.rows.take 100) from by
      simp [syncTable, hc]]
  exact syncRows_attests env tbl.name tbl.columns (tbl.rows.take 100) m 0 hm row hrow

theorem syncTable_all_attested (env : InitEnv) (m : BlockchainManager)
    (tbl : TrackedTable) (hm : m.initDone = true)
    (h : tableAttested m.chain tbl) : syncTable env m tbl = (m, 0) := by
  by_cases hc : tbl.columns.isEmpty
  · simp [syncTable, hc]
  · rw [show syncTable env m tbl =
      syncRows env tbl.name tbl.columns (m, 0) (tbl.rows.take 100) from by
        simp [syncTable, hc]]
    exact syncRows_all_attested env tbl.name tbl.columns (tbl.rows.take 100) m 0 hm
      (h (by simpa using hc))

theorem syncTables_ext (env : InitEnv) (tables : List TrackedTable) :
    ∀ (m : BlockchainManager) (k : Nat), m.initDone = true →
      ∃ e, (syncTables env (m, k) tables).1.chain = m.chain ++ e ∧
        (syncTables env (m, k) tables).1.initDone = true := by
  induction tables with
  | nil => intro m k hm; exact ⟨[], by simp [syncTables], hm⟩
  | cons tbl rest ih =>
    intro m k hm
    rw [show syncTables env (m, k) (tbl :: rest) =
      syncTables env ((syncTable env m tbl).1, k + (syncTable env m tbl).2) rest from rfl]
    obtain ⟨e1, he1, hi1⟩ := syncTable_ext env m tbl hm
    obtain ⟨e2, he2, hi2⟩ := ih (syncTable env m tbl).1 (k + (syncTable env m tbl).2) hi1
    exact ⟨e1 ++ e2, by rw [he2, he1, List.append_assoc], hi2⟩

theorem syncTables_attests (env : InitEnv) (tables : List TrackedTable) :
    ∀ (m : BlockchainManager) (k : Nat), m.initDone = true →
      ∀ tbl ∈ tables, tableAttested (syncTables env (m, k) tables).1.chain tbl := by
  induction tables with
  | nil =>
    intro m k _ tbl htbl
    exact absurd htbl (List.not_mem_nil tbl)
  | cons tbl0 rest ih =>
    intro m k hm tbl htbl
    rw [show syncTables env (m, k) (tbl0 :: rest) =
      syncTables env ((syncTable env m tbl0).1, k + (syncTable env m tbl0).2) rest from rfl]
    obtain ⟨e1, he1, hi1⟩ := syncTable_ext env m tbl0 hm
    rcases List.mem_cons.mp htbl with rfl | hmem
    · have h1 := syncTable_attests env m tbl hm
      obtain ⟨e2, he2, -⟩ := syncTables_ext env rest (syncTable env m tbl).1
        (k + (syncTable env m tbl).2) hi1
      rw [he2]
      exact tableAttested_append _ _ _ h1
    · exact ih (syncTable env m tbl0).1 (k + (syncTable env m tbl0).2) hi1 tbl hmem

theorem syncTables_all_attested (env : InitEnv) (tables : List TrackedTable) :
    ∀ (m : BlockchainManager) (k : Nat), m.initDone = true →
      (∀ tbl ∈ tables, tableAttested m.chain tbl) →
      syncTables env (m, k) tables = (m, k) := by
  induction tables with
  | nil => intro m k _ _; rfl
  | cons tbl rest ih =>
    intro m k hm hall
    rw [show syncTables env (m, k) (tbl :: rest) =
      syncTables env ((syncTable env m tbl).1, k + (syncTable env m tbl).2) rest from rfl]
    rw [syncTable_all_attested env m tbl hm (hall tbl (List.mem_cons_self _ _))]
    exact ih m k hm fun t ht => hall t (List.mem_cons_of_mem _ ht)

/-- C6: the reconciler sync is idempotent: immediately after a complete run
(every attempted insert succeeding), running it again over the same tracked
tables adds zero new blocks and leaves the state unchanged. -/
theorem sync_idempotent (env : InitEnv) (m : BlockchainManager)
    (tables : List TrackedTable) (hm : m.initDone = true) :
    sync_blockchain_with_existing_data env
        (sync_blockchain_with_existing_data env m tables).1 tables =
      ((sync_blockchain_with_existing_data env m tables).1, 0) := by
  obtain ⟨e, -, hi⟩ := syncTables_ext env tables m 0 hm
  have hall := syncTables_attests env tables m 0 hm
  exact syncTables_all_attested env tables (syncTables env (m, 0) tables).1 0 hi hall

/-- Witness for C6: one table, two rows, starting from the empty initialized
chain. -/
theorem sync_idempotent_witness :
    (BlockchainManager.mk [] true).initDone = true ∧
      sync_blockchain_with_existing_data ⟨true, some 1, []⟩
          (sync_blockchain_with_existing_data ⟨true, some 1, []⟩ ⟨[], true⟩
            [⟨"PATIENTS", ["id", "name"],
              [[.int 1, .str "ann"], [.int 2, .str "bob"]]⟩]).1
          [⟨"PATIENTS", ["id", "name"],
            [[.int 1, .str "ann"], [.int 2, .str "bob"]]⟩] =
        ((sync_blockchain_with_existing_data ⟨true, some 1, []⟩ ⟨[], true⟩
            [⟨"PATIENTS", ["id", "name"],
              [[.int 1, .str "ann"], [.int 2, .str "bob"]]⟩]).1, 0) :=
  ⟨by decide,
    sync_idempotent ⟨true, some 1, []⟩ ⟨[], true⟩
      [⟨"PATIENTS", ["id", "name"], [[.int 1, .str "ann"], [.int 2, .str "bob"]]⟩]
      (by decide)⟩
